import Mathlib

set_option maxRecDepth 8000

/-
Verification of the single-threaded circular-buffer allocator prototype
(`circalloc` / `circfree` in alloctest.c) against its specification.

The arena is a fixed byte buffer of `BUFFSIZE` bytes; every block starts with
an 8-byte in-band header `struct hdr { uint8_t free; uint32_t len; }`.  The
embedding keeps the arena as a map from byte offsets to the headers written
there (user payload bytes are never read by the allocator), together with the
two global cursors `head` and `tail`.  Pointers are represented by their byte
offset from the start of `buffer`.
-/

namespace Circalloc

/-- Arena size in bytes: `#define BUFFSIZE 2048` (a multiple of the 16-byte alignment). -/
def BUFFSIZE : Nat := 2048

/-- Flag value `HDR_FREE = 0`: this block is free. -/
def HDR_FREE : Nat := 0

/-- Flag value `HDR_INUSE = 1`: this block is in use. -/
def HDR_INUSE : Nat := 1

/-- Flag value `HDR_GAP = 2`: a gap block inserted on wrap-around. -/
def HDR_GAP : Nat := 2

/-- The in-band block header `struct hdr { uint8_t free; uint32_t len; }`
(`sizeof(struct hdr) = 8` on the tested 64-bit platform). -/
structure Hdr where
  free : Nat
  len : Nat
deriving DecidableEq

/-- The allocator's global state: `uint8_t buffer[BUFFSIZE]` viewed as the
block headers written into it (`buf o` is the header starting at byte offset
`o`), plus the cursors `uint32_t head` and `uint32_t tail`. -/
structure St where
  buf : Nat → Hdr
  head : Nat
  tail : Nat

/-- The initial state: all globals are zero-initialised, so every header
field reads as zero. -/
def st0 : St := ⟨fun _ => ⟨0, 0⟩, 0, 0⟩

/-- `avail()`: `head >= tail ? BUFFSIZE - head + tail : tail - head`. -/
def avail (s : St) : Nat :=
  if s.tail ≤ s.head then BUFFSIZE - s.head + s.tail else s.tail - s.head

/-- Store a header at byte offset `o` of the arena. -/
def writeHdr (buf : Nat → Hdr) (o : Nat) (h : Hdr) : Nat → Hdr :=
  fun x => if x = o then h else buf x

/-- `circallocblock(size, hdr_free)`: when `size` is nonzero, write the header
`{free = hdr_free, len = size}` at `buffer + head` and advance
`head = (head + size) % BUFFSIZE`. -/
def circallocblock (s : St) (size : Nat) (hdr_free : Nat) : St :=
  if size = 0 then s
  else ⟨writeHdr s.buf s.head ⟨hdr_free, size⟩, (s.head + size) % BUFFSIZE, s.tail⟩

/-- `int block_size = (size + sizeof(struct hdr) + 0xF) & ~0xF` with
`sizeof(struct hdr) = 8`; clearing the four low bits of `n` is `n / 16 * 16`. -/
def blockSize (size : Nat) : Nat := (size + 8 + 15) / 16 * 16

/-- Lines 62-68 of the source (`circalloc`): the extra gap chunk `rem`
reserved when the request does not fit between `head` and the physical end of
the arena (`head >= tail && BUFFSIZE - head < block_size`), else `0`. -/
def remOf (s : St) (size : Nat) : Nat :=
  if s.tail ≤ s.head ∧ BUFFSIZE - s.head < blockSize size then BUFFSIZE - s.head else 0

/-- Lines 54 and 67 of the source (`circalloc`): the byte offset of the block
serving the request (`0` after a wrap, the current `head` otherwise). -/
def allocOffset (s : St) (size : Nat) : Nat :=
  if s.tail ≤ s.head ∧ BUFFSIZE - s.head < blockSize size then 0 else s.head

/-- The total reservation of an allocation: the real block plus any wrap gap. -/
def rsize (s : St) (size : Nat) : Nat := blockSize size + remOf s size

/-- `circalloc(size)`: fail (return `NULL`, here `none`) when
`avail() <= block_size + rem`; otherwise reserve the gap block (if any) and the
real block, and return `buffer + offset + sizeof(struct hdr)` (as a byte
offset from `buffer`). -/
def circalloc (s : St) (size : Nat) : St × Option Nat :=
  if avail s ≤ blockSize size + remOf s size then (s, none)
  else (circallocblock (circallocblock s (remOf s size) HDR_GAP) (blockSize size) HDR_INUSE,
        some (allocOffset s size + 8))

/-- One step of the `do { switch (meta->free) ... } while (head != tail)` walk
of `circfree`, with explicit fuel standing in for the source's unbounded loop
(the source itself warns that a corrupted structure makes this walk loop
forever; in every valid state it stops long before the fuel runs out).
`metaPos` is the byte offset the cursor `meta` points at, and `gmeta` the
pending gap header (`NULL` rendered as `none`). -/
def circfreeLoop : Nat → St → Nat → Option Hdr → St
  | 0, s, _, _ => s
  | fuel + 1, s, metaPos, gmeta =>
    let meta := s.buf metaPos
    if meta.free = HDR_INUSE then s
    else if meta.free = HDR_GAP then
      let gtail := (s.tail + meta.len) % BUFFSIZE
      if s.head ≠ s.tail then circfreeLoop fuel s gtail (some meta) else s
    else if meta.free = HDR_FREE then
      let t1 := match gmeta with
        | some g => (s.tail + g.len) % BUFFSIZE
        | none => s.tail
      let t2 := (t1 + meta.len) % BUFFSIZE
      let s2 : St := ⟨s.buf, s.head, t2⟩
      if s2.head ≠ s2.tail then circfreeLoop fuel s2 t2 none else s2
    else if s.head ≠ s.tail then circfreeLoop fuel s metaPos gmeta else s

/-- `circfree(addr)`: mark the owning block free
(`meta = addr - sizeof(struct hdr); meta->free = HDR_FREE`, keeping its
length), then walk the tail forward from `buffer + tail`. -/
def circfree (s : St) (addr : Nat) : St :=
  let mpos := addr - 8
  circfreeLoop BUFFSIZE ⟨writeHdr s.buf mpos ⟨HDR_FREE, (s.buf mpos).len⟩, s.head, s.tail⟩
    s.tail none

/-- Spec-side definition, for comparison only: the spec's `round_up(n, a)`. -/
def roundUp (n a : Nat) : Nat := (n + a - 1) / a * a

/-- Spec-side definition, for comparison only: the block length the spec
prescribes for a request, `nsize = round_up(size, 16) + 16`. -/
def specNsize (size : Nat) : Nat := roundUp size 16 + 16

/-! ### Ghost model: the list of blocks currently held between tail and head -/

/-- Total length in bytes of a list of block headers. -/
def sumLen : List Hdr → Nat
  | [] => 0
  | b :: rest => b.len + sumLen rest

/-- Length in bytes of the first `i` blocks of the list. -/
def sumTo : List Hdr → Nat → Nat
  | _, 0 => 0
  | [], _ + 1 => 0
  | b :: rest, i + 1 => b.len + sumTo rest i

/-- The i-th header of a block list (a dummy all-zero header out of range). -/
def nthHdr : List Hdr → Nat → Hdr
  | [], _ => ⟨0, 0⟩
  | b :: _, 0 => b
  | _ :: rest, i + 1 => nthHdr rest i

/-- Byte offset of the i-th block when the first block starts at offset `t`. -/
def posAt (t : Nat) (bs : List Hdr) (i : Nat) : Nat := (t + sumTo bs i) % BUFFSIZE

/-- Gap blocks are always directly followed by a non-gap block (the real block
reserved together with them); in particular a gap block is never last and two
gap blocks are never adjacent. -/
def gapOk : List Hdr → Prop
  | [] => True
  | [b] => b.free ≠ HDR_GAP
  | b :: c :: rest => (b.free = HDR_GAP → c.free ≠ HDR_GAP) ∧ gapOk (c :: rest)

/-- Flip the i-th block's flag to `HDR_FREE`, keeping its length (the effect
of `meta->free = HDR_FREE` on the ghost list). -/
def setFree : List Hdr → Nat → List Hdr
  | [], _ => []
  | b :: rest, 0 => ⟨HDR_FREE, b.len⟩ :: rest
  | b :: rest, i + 1 => b :: setFree rest i

/-- The effect of the retirement walk on the ghost list: drop freed blocks
(and gap blocks whose successor is freed) from the front until the front block
is in use, or a gap block is followed by an in-use block, or nothing is left. -/
def cascade : List Hdr → List Hdr
  | [] => []
  | b :: rest =>
    if b.free = HDR_FREE then cascade rest
    else if b.free = HDR_GAP then
      match rest with
      | [] => b :: rest
      | c :: rest2 => if c.free = HDR_FREE then cascade rest2 else b :: rest
    else b :: rest

/-- The block headers a successful allocation appends to the ghost list: a
wrap gap when one is needed, followed by the real block. -/
def allocBlocks (s : St) (size : Nat) : List Hdr :=
  if s.tail ≤ s.head ∧ BUFFSIZE - s.head < blockSize size then
    [⟨HDR_GAP, BUFFSIZE - s.head⟩, ⟨HDR_INUSE, blockSize size⟩]
  else [⟨HDR_INUSE, blockSize size⟩]

/-- The coupling invariant between an allocator state and its ghost block
list: the blocks tile the region from `tail` to `head` (in circular order),
each header is actually written in the arena at its block's offset, lengths
are positive multiples of 16, the held total leaves at least 16 free bytes
(so `head == tail` can only mean empty), and gap blocks are always directly
followed by a real block. -/
structure Valid (s : St) (bs : List Hdr) : Prop where
  head_lt : s.head < BUFFSIZE
  tail_lt : s.tail < BUFFSIZE
  tail_align : 16 ∣ s.tail
  len_pos : ∀ b ∈ bs, 0 < b.len
  len_align : ∀ b ∈ bs, 16 ∣ b.len
  flags : ∀ b ∈ bs, b.free = HDR_FREE ∨ b.free = HDR_INUSE ∨ b.free = HDR_GAP
  total : sumLen bs ≤ BUFFSIZE - 16
  head_eq : s.head = (s.tail + sumLen bs) % BUFFSIZE
  hdrs : ∀ i, i < bs.length → s.buf (posAt s.tail bs i) = nthHdr bs i
  gaps : gapOk bs

/-- States reachable from the freshly initialised allocator by valid calls:
any `circalloc`, and `circfree` on the payload offset of a block that is
currently in use (exactly the pointers handed out by `circalloc` and not yet
freed).  A failed `circalloc` returns the state unchanged, so it needs no
rule of its own. -/
inductive Reach : St → List Hdr → Prop where
  | init : Reach st0 []
  | allocOk {s : St} {bs : List Hdr} {size : Nat} {s2 : St} {p : Nat} :
      Reach s bs → circalloc s size = (s2, some p) → Reach s2 (bs ++ allocBlocks s size)
  | freeStep {s : St} {bs : List Hdr} {i : Nat} :
      Reach s bs → i < bs.length → (nthHdr bs i).free = HDR_INUSE →
      Reach (circfree s (posAt s.tail bs i + 8)) (cascade (setFree bs i))

/-! ### Arithmetic helpers -/

lemma dvd16_BUFFSIZE : (16 : Nat) ∣ BUFFSIZE := by decide

lemma mod_lt_BUFFSIZE (a : Nat) : a % BUFFSIZE < BUFFSIZE := Nat.mod_lt _ (by decide)

lemma dvd16_mod {a : Nat} (h : 16 ∣ a) : 16 ∣ a % BUFFSIZE :=
  (Nat.dvd_mod_iff dvd16_BUFFSIZE).mpr h

lemma align_le_sub {n : Nat} (h16 : 16 ∣ n) (hlt : n < BUFFSIZE) : n ≤ BUFFSIZE - 16 := by
  obtain ⟨k, rfl⟩ := h16
  have hB : BUFFSIZE = 2048 := rfl
  omega

lemma mod_cancel {t p q : Nat} (hpq : p ≤ q) (hq : q < BUFFSIZE)
    (h : (t + p) % BUFFSIZE = (t + q) % BUFFSIZE) : p = q := by
  have hme : t + p ≡ t + q [MOD BUFFSIZE] := h
  have h2 : p ≡ q [MOD BUFFSIZE] := Nat.ModEq.add_left_cancel' t hme
  have h3 : BUFFSIZE ∣ q - p := (Nat.modEq_iff_dvd' hpq).mp h2
  rcases h3 with ⟨k, hk⟩
  have hB : BUFFSIZE = 2048 := rfl
  rw [hB] at hk hq
  omega

/-! ### Lemmas about the ghost-list measures -/

@[simp] lemma sumLen_nil : sumLen [] = 0 := rfl

@[simp] lemma sumLen_cons (b : Hdr) (rest : List Hdr) :
    sumLen (b :: rest) = b.len + sumLen rest := rfl

lemma sumLen_append (bs cs : List Hdr) : sumLen (bs ++ cs) = sumLen bs + sumLen cs := by
  induction bs with
  | nil => simp
  | cons b rest ih => simp [ih]; omega

@[simp] lemma sumTo_zero (bs : List Hdr) : sumTo bs 0 = 0 := by cases bs <;> rfl

@[simp] lemma sumTo_nil (i : Nat) : sumTo [] i = 0 := by cases i <;> rfl

@[simp] lemma sumTo_cons_succ (b : Hdr) (rest : List Hdr) (i : Nat) :
    sumTo (b :: rest) (i + 1) = b.len + sumTo rest i := rfl

lemma sumTo_le_sumLen (bs : List Hdr) (i : Nat) : sumTo bs i ≤ sumLen bs := by
  induction bs generalizing i with
  | nil => simp
  | cons b rest ih =>
    cases i with
    | zero => simp
    | succ j =>
      simp only [sumTo_cons_succ, sumLen_cons]
      exact Nat.add_le_add_left (ih j) _

lemma sumTo_length (bs : List Hdr) : sumTo bs bs.length = sumLen bs := by
  induction bs with
  | nil => rfl
  | cons b rest ih => simp [List.length_cons, ih]

lemma sumTo_lt_of_lt (bs : List Hdr) (hpos : ∀ b ∈ bs, 0 < b.len) {i j : Nat}
    (hij : i < j) (hj : j ≤ bs.length) : sumTo bs i < sumTo bs j := by
  induction bs generalizing i j with
  | nil => simp at hj; omega
  | cons b rest ih =>
    cases j with
    | zero => omega
    | succ j2 =>
      cases i with
      | zero =>
        have hb := hpos b (List.mem_cons_self b rest)
        have h2 := sumTo_le_sumLen rest j2
        simp only [sumTo_zero, sumTo_cons_succ]
        omega
      | succ i2 =>
        have := ih (fun x hx => hpos x (List.mem_cons_of_mem b hx)) (by omega : i2 < j2)
          (by simp at hj; omega)
        simp only [sumTo_cons_succ]
        omega

lemma sumTo_append_le (bs cs : List Hdr) {i : Nat} (h : i ≤ bs.length) :
    sumTo (bs ++ cs) i = sumTo bs i := by
  induction bs generalizing i with
  | nil => simp at h; subst h; simp
  | cons b rest ih =>
    cases i with
    | zero => simp
    | succ j =>
      simp only [List.cons_append, sumTo_cons_succ]
      rw [ih (by simp at h; omega)]

lemma sumTo_append_add (bs cs : List Hdr) (k : Nat) :
    sumTo (bs ++ cs) (bs.length + k) = sumLen bs + sumTo cs k := by
  induction bs with
  | nil => simp
  | cons b rest ih =>
    have h : (b :: rest).length + k = (rest.length + k) + 1 := by simp; omega
    rw [h]
    simp only [List.cons_append, sumTo_cons_succ, sumLen_cons, ih]
    omega

lemma sumTo_dvd (bs : List Hdr) (h : ∀ b ∈ bs, 16 ∣ b.len) (i : Nat) : 16 ∣ sumTo bs i := by
  induction bs generalizing i with
  | nil => simp
  | cons b rest ih =>
    cases i with
    | zero => simp
    | succ j =>
      simp only [sumTo_cons_succ]
      exact Nat.dvd_add (h b (List.mem_cons_self b rest))
        (ih (fun x hx => h x (List.mem_cons_of_mem b hx)) j)

lemma sumLen_dvd (bs : List Hdr) (h : ∀ b ∈ bs, 16 ∣ b.len) : 16 ∣ sumLen bs := by
  rw [← sumTo_length]; exact sumTo_dvd bs h _

lemma sumLen_pos_of_ne_nil (bs : List Hdr) (hpos : ∀ b ∈ bs, 0 < b.len) (h : bs ≠ []) :
    0 < sumLen bs := by
  cases bs with
  | nil => exact absurd rfl h
  | cons b rest =>
    have := hpos b (List.mem_cons_self b rest)
    simp only [sumLen_cons]
    omega

@[simp] lemma nthHdr_cons_zero (b : Hdr) (rest : List Hdr) : nthHdr (b :: rest) 0 = b := rfl

@[simp] lemma nthHdr_cons_succ (b : Hdr) (rest : List Hdr) (i : Nat) :
    nthHdr (b :: rest) (i + 1) = nthHdr rest i := rfl

lemma nthHdr_mem (bs : List Hdr) {i : Nat} (h : i < bs.length) : nthHdr bs i ∈ bs := by
  induction bs generalizing i with
  | nil => simp at h
  | cons b rest ih =>
    cases i with
    | zero => simp
    | succ j =>
      simp only [nthHdr_cons_succ]
      exact List.mem_cons_of_mem b (ih (by simp at h; omega))

lemma nthHdr_append_left (bs cs : List Hdr) {i : Nat} (h : i < bs.length) :
    nthHdr (bs ++ cs) i = nthHdr bs i := by
  induction bs generalizing i with
  | nil => simp at h
  | cons b rest ih =>
    cases i with
    | zero => rfl
    | succ j =>
      simp only [List.cons_append, nthHdr_cons_succ]
      exact ih (by simp at h; omega)

lemma nthHdr_append_add (bs cs : List Hdr) (k : Nat) :
    nthHdr (bs ++ cs) (bs.length + k) = nthHdr cs k := by
  induction bs with
  | nil => simp
  | cons b rest ih =>
    have h : (b :: rest).length + k = (rest.length + k) + 1 := by simp; omega
    rw [h]
    simp only [List.cons_append, nthHdr_cons_succ]
    exact ih

lemma posAt_zero (t : Nat) (bs : List Hdr) : posAt t bs 0 = t % BUFFSIZE := by
  simp [posAt]

lemma posAt_append_le (t : Nat) (bs cs : List Hdr) {i : Nat} (h : i ≤ bs.length) :
    posAt t (bs ++ cs) i = posAt t bs i := by
  simp [posAt, sumTo_append_le bs cs h]

lemma posAt_cons (t : Nat) (b : Hdr) (rest : List Hdr) (i : Nat) :
    posAt t (b :: rest) (i + 1) = posAt ((t + b.len) % BUFFSIZE) rest i := by
  simp only [posAt, sumTo_cons_succ]
  rw [Nat.mod_add_mod, ← Nat.add_assoc]

lemma posAt_ne (t : Nat) (bs : List Hdr) (hpos : ∀ b ∈ bs, 0 < b.len)
    (hsum : sumLen bs < BUFFSIZE) {i j : Nat} (hij : i < j) (hj : j ≤ bs.length) :
    posAt t bs i ≠ posAt t bs j := by
  intro h
  have h1 : sumTo bs i < sumTo bs j := sumTo_lt_of_lt bs hpos hij hj
  have h2 : sumTo bs j ≤ sumLen bs := sumTo_le_sumLen bs j
  have := mod_cancel (Nat.le_of_lt h1) (by omega) h
  omega

lemma posAt_ne' (t : Nat) (bs : List Hdr) (hpos : ∀ b ∈ bs, 0 < b.len)
    (hsum : sumLen bs < BUFFSIZE) {i j : Nat} (hij : i ≠ j) (hi : i ≤ bs.length)
    (hj : j ≤ bs.length) : posAt t bs i ≠ posAt t bs j := by
  rcases Nat.lt_or_ge i j with h | h
  · exact posAt_ne t bs hpos hsum h hj
  · have hlt : j < i := by omega
    exact fun he => (posAt_ne t bs hpos hsum hlt hi) he.symm

/-! ### Lemmas about `gapOk` and `setFree` -/

@[simp] lemma gapOk_nil : gapOk [] := trivial

lemma gapOk_tail {b : Hdr} {rest : List Hdr} (h : gapOk (b :: rest)) : gapOk rest := by
  cases rest with
  | nil => trivial
  | cons c rest2 => exact h.2

lemma gapOk_head_gap {b : Hdr} {rest : List Hdr} (h : gapOk (b :: rest))
    (hb : b.free = HDR_GAP) : ∃ c rest2, rest = c :: rest2 ∧ c.free ≠ HDR_GAP := by
  cases rest with
  | nil => exact absurd hb h
  | cons c rest2 => exact ⟨c, rest2, rfl, h.1 hb⟩

lemma gapOk_append {bs cs : List Hdr} (h1 : gapOk bs) (h2 : gapOk cs) : gapOk (bs ++ cs) := by
  induction bs with
  | nil => simpa
  | cons b rest ih =>
    cases rest with
    | nil =>
      cases cs with
      | nil => exact h1
      | cons c cs2 => exact ⟨fun hb => absurd hb h1, h2⟩
    | cons b2 rest2 => exact ⟨h1.1, ih (gapOk_tail h1)⟩

@[simp] lemma setFree_nil (i : Nat) : setFree [] i = [] := rfl

@[simp] lemma setFree_cons_zero (b : Hdr) (rest : List Hdr) :
    setFree (b :: rest) 0 = ⟨HDR_FREE, b.len⟩ :: rest := rfl

@[simp] lemma setFree_cons_succ (b : Hdr) (rest : List Hdr) (i : Nat) :
    setFree (b :: rest) (i + 1) = b :: setFree rest i := rfl

lemma length_setFree (bs : List Hdr) (i : Nat) : (setFree bs i).length = bs.length := by
  induction bs generalizing i with
  | nil => rfl
  | cons b rest ih => cases i <;> simp [ih]

lemma sumTo_setFree (bs : List Hdr) (i j : Nat) : sumTo (setFree bs i) j = sumTo bs j := by
  induction bs generalizing i j with
  | nil => simp
  | cons b rest ih =>
    cases i with
    | zero => cases j <;> simp
    | succ i2 => cases j <;> simp [ih]

lemma sumLen_setFree (bs : List Hdr) (i : Nat) : sumLen (setFree bs i) = sumLen bs := by
  rw [← sumTo_length, ← sumTo_length, length_setFree, sumTo_setFree]

lemma posAt_setFree (t : Nat) (bs : List Hdr) (i j : Nat) :
    posAt t (setFree bs i) j = posAt t bs j := by
  simp [posAt, sumTo_setFree]

lemma nthHdr_setFree_self (bs : List Hdr) {i : Nat} (h : i < bs.length) :
    nthHdr (setFree bs i) i = ⟨HDR_FREE, (nthHdr bs i).len⟩ := by
  induction bs generalizing i with
  | nil => simp at h
  | cons b rest ih =>
    cases i with
    | zero => rfl
    | succ j =>
      simp only [setFree_cons_succ, nthHdr_cons_succ]
      exact ih (by simp at h; omega)

lemma nthHdr_setFree_other (bs : List Hdr) {i j : Nat} (h : j ≠ i) :
    nthHdr (setFree bs i) j = nthHdr bs j := by
  induction bs generalizing i j with
  | nil => simp
  | cons b rest ih =>
    cases i with
    | zero =>
      cases j with
      | zero => exact absurd rfl h
      | succ j2 => rfl
    | succ i2 =>
      cases j with
      | zero => rfl
      | succ j2 =>
        simp only [setFree_cons_succ, nthHdr_cons_succ]
        exact ih (by omega)

lemma setFree_len_prop (bs : List Hdr) (i : Nat) (P : Nat → Prop)
    (h : ∀ b ∈ bs, P b.len) : ∀ b ∈ setFree bs i, P b.len := by
  induction bs generalizing i with
  | nil => simp
  | cons b rest ih =>
    cases i with
    | zero =>
      intro x hx
      rcases List.mem_cons.mp hx with h1 | h1
      · subst h1; exact h b (List.mem_cons_self b rest)
      · exact h x (List.mem_cons_of_mem b h1)
    | succ i2 =>
      intro x hx
      rcases List.mem_cons.mp hx with h1 | h1
      · subst h1; exact h x (List.mem_cons_self x rest)
      · exact ih i2 (fun y hy => h y (List.mem_cons_of_mem b hy)) x h1

lemma setFree_flags (bs : List Hdr) (i : Nat)
    (h : ∀ b ∈ bs, b.free = HDR_FREE ∨ b.free = HDR_INUSE ∨ b.free = HDR_GAP) :
    ∀ b ∈ setFree bs i, b.free = HDR_FREE ∨ b.free = HDR_INUSE ∨ b.free = HDR_GAP := by
  induction bs generalizing i with
  | nil => simp
  | cons b rest ih =>
    cases i with
    | zero =>
      intro x hx
      rcases List.mem_cons.mp hx with h1 | h1
      · subst h1; exact Or.inl rfl
      · exact h x (List.mem_cons_of_mem b h1)
    | succ i2 =>
      intro x hx
      rcases List.mem_cons.mp hx with h1 | h1
      · subst h1; exact h x (List.mem_cons_self x rest)
      · exact ih i2 (fun y hy => h y (List.mem_cons_of_mem b hy)) x h1

lemma gapOk_setFree (bs : List Hdr) (i : Nat) (hg : gapOk bs)
    (hni : (nthHdr bs i).free ≠ HDR_GAP) : gapOk (setFree bs i) := by
  induction bs generalizing i with
  | nil => simp
  | cons b rest ih =>
    cases i with
    | zero =>
      cases rest with
      | nil => simp [gapOk, HDR_FREE, HDR_GAP]
      | cons c rest2 => exact ⟨fun hb => by simp [HDR_FREE, HDR_GAP] at hb, hg.2⟩
    | succ i2 =>
      cases rest with
      | nil => exact hg
      | cons c rest2 =>
        have htl : gapOk (setFree (c :: rest2) i2) := ih i2 hg.2 (by simpa using hni)
        cases i2 with
        | zero => exact ⟨fun hb => by simp [HDR_FREE, HDR_GAP], htl⟩
        | succ i3 => exact ⟨fun hb => hg.1 hb, htl⟩

/-! ### Facts about `blockSize` -/

lemma blockSize_ge (size : Nat) : 16 ≤ blockSize size := by
  unfold blockSize
  have h1 : 1 ≤ (size + 8 + 15) / 16 := (Nat.one_le_div_iff (by omega)).mpr (by omega)
  omega

lemma blockSize_pos (size : Nat) : 0 < blockSize size := by
  have := blockSize_ge size; omega

lemma blockSize_dvd (size : Nat) : 16 ∣ blockSize size := by
  unfold blockSize
  exact Nat.dvd_mul_left 16 _

/-! ### Derived facts about `Valid` -/

lemma Valid.sum_align {s : St} {bs : List Hdr} (hv : Valid s bs) : 16 ∣ sumLen bs :=
  sumLen_dvd bs hv.len_align

lemma Valid.sum_lt {s : St} {bs : List Hdr} (hv : Valid s bs) : sumLen bs < BUFFSIZE := by
  have := hv.total
  have hB : BUFFSIZE = 2048 := rfl
  omega

lemma Valid.head_align {s : St} {bs : List Hdr} (hv : Valid s bs) : 16 ∣ s.head := by
  rw [hv.head_eq]
  exact dvd16_mod (Nat.dvd_add hv.tail_align hv.sum_align)

lemma Valid.head_add {s : St} {bs : List Hdr} (hv : Valid s bs) :
    (s.tail + sumLen bs < BUFFSIZE ∧ s.head = s.tail + sumLen bs) ∨
    (BUFFSIZE ≤ s.tail + sumLen bs ∧ s.head + BUFFSIZE = s.tail + sumLen bs) := by
  have he := hv.head_eq
  have ht := hv.tail_lt
  have hs := hv.sum_lt
  by_cases hc : s.tail + sumLen bs < BUFFSIZE
  · left
    exact ⟨hc, by rw [he, Nat.mod_eq_of_lt hc]⟩
  · right
    push_neg at hc
    have he2 : s.head = s.tail + sumLen bs - BUFFSIZE := by
      rw [he, Nat.mod_eq_sub_mod hc]
      exact Nat.mod_eq_of_lt (by omega)
    exact ⟨hc, by omega⟩

lemma Valid.avail_eq {s : St} {bs : List Hdr} (hv : Valid s bs) :
    avail s = BUFFSIZE - sumLen bs := by
  rcases hv.head_add with ⟨h1, h2⟩ | ⟨h1, h2⟩
  · have ht : s.tail ≤ s.head := by omega
    simp only [avail, if_pos ht]
    omega
  · have h16 := hv.total
    have hB : BUFFSIZE = 2048 := rfl
    have ht : ¬ (s.tail ≤ s.head) := by omega
    simp only [avail, if_neg ht]
    omega

lemma Valid.tail_le_head_iff {s : St} {bs : List Hdr} (hv : Valid s bs) :
    s.tail ≤ s.head ↔ s.tail + sumLen bs < BUFFSIZE := by
  have h16 := hv.total
  have hB : BUFFSIZE = 2048 := rfl
  rcases hv.head_add with ⟨h1, h2⟩ | ⟨h1, h2⟩ <;> constructor <;> intro <;> omega

lemma Valid.head_ne_tail {s : St} {bs : List Hdr} (hv : Valid s bs) (h : bs ≠ []) :
    s.head ≠ s.tail := by
  have hpos := sumLen_pos_of_ne_nil bs hv.len_pos h
  have h16 := hv.total
  have hB : BUFFSIZE = 2048 := rfl
  rcases hv.head_add with ⟨h1, h2⟩ | ⟨h1, h2⟩ <;> omega

lemma Valid.head_eq_tail_iff {s : St} {bs : List Hdr} (hv : Valid s bs) :
    s.head = s.tail ↔ bs = [] := by
  constructor
  · intro h
    by_contra hne
    exact (hv.head_ne_tail hne) h
  · intro h
    subst h
    rw [hv.head_eq, sumLen_nil, Nat.add_zero, Nat.mod_eq_of_lt hv.tail_lt]

/-- Retiring the front block of the ghost list: the state with the tail
advanced past it is valid for the remaining blocks. -/
lemma valid_dropFront {s : St} {b : Hdr} {rest : List Hdr} (hv : Valid s (b :: rest)) :
    Valid ⟨s.buf, s.head, (s.tail + b.len) % BUFFSIZE⟩ rest := by
  have hmem : ∀ x ∈ rest, x ∈ b :: rest := fun x hx => List.mem_cons_of_mem b hx
  refine ⟨?_, ?_, ?_, ?_, ?_, ?_, ?_, ?_, ?_, ?_⟩
  · exact hv.head_lt
  · exact mod_lt_BUFFSIZE _
  · exact dvd16_mod (Nat.dvd_add hv.tail_align (hv.len_align b (List.mem_cons_self b rest)))
  · exact fun x hx => hv.len_pos x (hmem x hx)
  · exact fun x hx => hv.len_align x (hmem x hx)
  · exact fun x hx => hv.flags x (hmem x hx)
  · have := hv.total
    simp only [sumLen_cons] at this
    omega
  · show s.head = ((s.tail + b.len) % BUFFSIZE + sumLen rest) % BUFFSIZE
    rw [Nat.mod_add_mod, Nat.add_assoc, ← sumLen_cons]
    exact hv.head_eq
  · intro i hi
    show s.buf (posAt ((s.tail + b.len) % BUFFSIZE) rest i) = nthHdr rest i
    rw [← posAt_cons]
    have h2 := hv.hdrs (i + 1) (by simp only [List.length_cons]; omega)
    simpa using h2
  · exact gapOk_tail hv.gaps

/-! ### The retirement walk on the ghost list -/

lemma cascade_nil : cascade [] = [] := rfl

lemma HDR_GAP_ne_FREE : HDR_GAP ≠ HDR_FREE := by decide

lemma HDR_INUSE_ne_FREE : HDR_INUSE ≠ HDR_FREE := by decide

lemma HDR_INUSE_ne_GAP : HDR_INUSE ≠ HDR_GAP := by decide

lemma cascade_cons_free {b : Hdr} {rest : List Hdr} (hb : b.free = HDR_FREE) :
    cascade (b :: rest) = cascade rest := by
  cases rest <;> simp [cascade, hb]

lemma cascade_cons_keep {b : Hdr} {rest : List Hdr} (hb0 : b.free ≠ HDR_FREE)
    (hb2 : b.free ≠ HDR_GAP) : cascade (b :: rest) = b :: rest := by
  cases rest <;> simp [cascade, hb0, hb2]

lemma cascade_cons_inuse {b : Hdr} {rest : List Hdr} (hb : b.free = HDR_INUSE) :
    cascade (b :: rest) = b :: rest := by
  refine cascade_cons_keep ?_ ?_ <;> rw [hb]
  · exact HDR_INUSE_ne_FREE
  · exact HDR_INUSE_ne_GAP

lemma cascade_gap_nil {b : Hdr} (hb : b.free = HDR_GAP) : cascade [b] = [b] := by
  simp [cascade, hb, HDR_GAP_ne_FREE]

lemma cascade_gap_free {b c : Hdr} {rest2 : List Hdr} (hb : b.free = HDR_GAP)
    (hc : c.free = HDR_FREE) : cascade (b :: c :: rest2) = cascade rest2 := by
  simp [cascade, hb, hc, HDR_GAP_ne_FREE]

lemma cascade_gap_keep {b c : Hdr} {rest2 : List Hdr} (hb : b.free = HDR_GAP)
    (hc : c.free ≠ HDR_FREE) : cascade (b :: c :: rest2) = b :: c :: rest2 := by
  simp [cascade, hb, hc, HDR_GAP_ne_FREE]

lemma cascade_prefix_aux : ∀ (n : Nat) (bs : List Hdr), bs.length ≤ n →
    ∃ ds, bs = ds ++ cascade bs ∧ ∀ b ∈ ds, b.free ≠ HDR_INUSE := by
  intro n
  induction n with
  | zero =>
    intro bs h
    have : bs = [] := List.eq_nil_of_length_eq_zero (by omega)
    subst this
    exact ⟨[], rfl, by simp⟩
  | succ n ih =>
    intro bs h
    cases bs with
    | nil => exact ⟨[], rfl, by simp⟩
    | cons b rest =>
      by_cases hb0 : b.free = HDR_FREE
      · obtain ⟨ds, hds, hni⟩ := ih rest (by simp at h; omega)
        refine ⟨b :: ds, ?_, ?_⟩
        · rw [cascade_cons_free hb0, List.cons_append, ← hds]
        · intro x hx
          rcases List.mem_cons.mp hx with h1 | h1
          · subst h1; rw [hb0]; decide
          · exact hni x h1
      · by_cases hb2 : b.free = HDR_GAP
        · cases rest with
          | nil =>
            refine ⟨[], ?_, by simp⟩
            rw [cascade_gap_nil hb2]
            rfl
          | cons c rest2 =>
            by_cases hc : c.free = HDR_FREE
            · obtain ⟨ds, hds, hni⟩ := ih rest2 (by simp at h; omega)
              refine ⟨b :: c :: ds, ?_, ?_⟩
              · rw [cascade_gap_free hb2 hc]
                simp only [List.cons_append]
                rw [← hds]
              · intro x hx
                rcases List.mem_cons.mp hx with h1 | h1
                · subst h1; rw [hb2]; decide
                · rcases List.mem_cons.mp h1 with h2 | h2
                  · subst h2; rw [hc]; decide
                  · exact hni x h2
            · exact ⟨[], by rw [cascade_gap_keep hb2 hc]; simp, by simp⟩
        · exact ⟨[], by rw [cascade_cons_keep hb0 hb2]; simp, by simp⟩

lemma cascade_prefix (bs : List Hdr) :
    ∃ ds, bs = ds ++ cascade bs ∧ ∀ b ∈ ds, b.free ≠ HDR_INUSE :=
  cascade_prefix_aux bs.length bs (Nat.le_refl _)

lemma sumLen_cascade_le (bs : List Hdr) : sumLen (cascade bs) ≤ sumLen bs := by
  obtain ⟨ds, hds, -⟩ := cascade_prefix bs
  conv_rhs => rw [hds]
  rw [sumLen_append]
  omega

lemma cascade_inuse_aux : ∀ (n : Nat) (bs : List Hdr), bs.length ≤ n → gapOk bs →
    (∀ b ∈ bs, b.free = HDR_FREE ∨ b.free = HDR_INUSE ∨ b.free = HDR_GAP) →
    cascade bs ≠ [] → ∃ b ∈ cascade bs, b.free = HDR_INUSE := by
  intro n
  induction n with
  | zero =>
    intro bs h _ _ hne
    have : bs = [] := List.eq_nil_of_length_eq_zero (by omega)
    subst this
    exact absurd cascade_nil hne
  | succ n ih =>
    intro bs h hg hfl hne
    cases bs with
    | nil => exact absurd cascade_nil hne
    | cons b rest =>
      rcases hfl b (List.mem_cons_self b rest) with hb | hb | hb
      · rw [cascade_cons_free hb] at hne ⊢
        exact ih rest (by simp at h; omega) (gapOk_tail hg)
          (fun x hx => hfl x (List.mem_cons_of_mem b hx)) hne
      · rw [cascade_cons_inuse hb]
        exact ⟨b, List.mem_cons_self b rest, hb⟩
      · obtain ⟨c, rest2, hrest, hcg⟩ := gapOk_head_gap hg hb
        subst hrest
        by_cases hc : c.free = HDR_FREE
        · rw [cascade_gap_free hb hc] at hne ⊢
          exact ih rest2 (by simp at h; omega) (gapOk_tail (gapOk_tail hg))
            (fun x hx => hfl x (List.mem_cons_of_mem b (List.mem_cons_of_mem c hx))) hne
        · rw [cascade_gap_keep hb hc]
          have hc1 : c.free = HDR_INUSE := by
            rcases hfl c (List.mem_cons_of_mem b (List.mem_cons_self c rest2)) with h1 | h1 | h1
            · exact absurd h1 hc
            · exact h1
            · exact absurd h1 hcg
          exact ⟨c, List.mem_cons_of_mem b (List.mem_cons_self c rest2), hc1⟩

lemma cascade_inuse (bs : List Hdr) (hg : gapOk bs)
    (hfl : ∀ b ∈ bs, b.free = HDR_FREE ∨ b.free = HDR_INUSE ∨ b.free = HDR_GAP)
    (hne : cascade bs ≠ []) : ∃ b ∈ cascade bs, b.free = HDR_INUSE :=
  cascade_inuse_aux bs.length bs (Nat.le_refl _) hg hfl hne

/-! ### Soundness of `circalloc` with respect to the ghost list -/

lemma circalloc_success {s : St} {size : Nat} {s2 : St} {p : Nat}
    (h : circalloc s size = (s2, some p)) :
    ¬ (avail s ≤ blockSize size + remOf s size) ∧
    s2 = circallocblock (circallocblock s (remOf s size) HDR_GAP) (blockSize size) HDR_INUSE ∧
    p = allocOffset s size + 8 := by
  by_cases hc : avail s ≤ blockSize size + remOf s size
  · rw [circalloc, if_pos hc] at h
    have h2 := congrArg Prod.snd h
    simp at h2
  · rw [circalloc, if_neg hc] at h
    have h1 := congrArg Prod.fst h
    have h2 := congrArg Prod.snd h
    simp at h1 h2
    exact ⟨hc, h1.symm, h2.symm⟩

lemma circalloc_fail {s : St} {size : Nat}
    (h : avail s ≤ blockSize size + remOf s size) : circalloc s size = (s, none) := by
  rw [circalloc, if_pos h]

theorem circalloc_sound {s : St} {bs : List Hdr} {size : Nat} {s2 : St} {p : Nat}
    (hv : Valid s bs) (h : circalloc s size = (s2, some p)) :
    Valid s2 (bs ++ allocBlocks s size) ∧ s2.tail = s.tail ∧
    s2.head = (s.head + remOf s size + blockSize size) % BUFFSIZE ∧
    p = allocOffset s size + 8 := by
  obtain ⟨hfail, hs2, hp⟩ := circalloc_success h
  have hav : avail s = BUFFSIZE - sumLen bs := hv.avail_eq
  have hsL := hv.sum_lt
  have hbpos := blockSize_pos size
  have hbal := blockSize_dvd size
  by_cases hw : s.tail ≤ s.head ∧ BUFFSIZE - s.head < blockSize size
  case neg =>
    have hrem : remOf s size = 0 := by rw [remOf, if_neg hw]
    have hoff : allocOffset s size = s.head := by rw [allocOffset, if_neg hw]
    have hblocks : allocBlocks s size = [⟨HDR_INUSE, blockSize size⟩] := by
      rw [allocBlocks, if_neg hw]
    rw [hrem] at hs2 hfail
    have hz : circallocblock s 0 HDR_GAP = s := by rw [circallocblock, if_pos rfl]
    rw [hz] at hs2
    have hbz : blockSize size ≠ 0 := by omega
    rw [circallocblock, if_neg hbz] at hs2
    subst hs2
    rw [hblocks]
    have hsum2 : sumLen bs + blockSize size < BUFFSIZE := by omega
    have hsum' : sumLen (bs ++ [⟨HDR_INUSE, blockSize size⟩]) = sumLen bs + blockSize size := by
      rw [sumLen_append]; simp
    have hpos' : ∀ b ∈ bs ++ [⟨HDR_INUSE, blockSize size⟩], 0 < b.len := by
      intro x hx
      rcases List.mem_append.mp hx with h1 | h1
      · exact hv.len_pos x h1
      · simp at h1; subst h1; exact hbpos
    have hheadpos : s.head = posAt s.tail (bs ++ [⟨HDR_INUSE, blockSize size⟩]) bs.length := by
      rw [posAt, sumTo_append_le bs _ (Nat.le_refl _), sumTo_length, ← hv.head_eq]
    refine ⟨⟨?_, hv.tail_lt, hv.tail_align, hpos', ?_, ?_, ?_, ?_, ?_, ?_⟩, rfl, ?_, ?_⟩
    · exact mod_lt_BUFFSIZE _
    · intro x hx
      rcases List.mem_append.mp hx with h1 | h1
      · exact hv.len_align x h1
      · simp at h1; subst h1; exact hbal
    · intro x hx
      rcases List.mem_append.mp hx with h1 | h1
      · exact hv.flags x h1
      · simp at h1; subst h1; exact Or.inr (Or.inl rfl)
    · rw [hsum']
      exact align_le_sub (Nat.dvd_add hv.sum_align hbal) hsum2
    · show (s.head + blockSize size) % BUFFSIZE = _
      rw [hv.head_eq, hsum', Nat.mod_add_mod, Nat.add_assoc]
    · intro i hi
      simp only [List.length_append, List.length_cons, List.length_nil] at hi
      by_cases hio : i < bs.length
      · have hne : posAt s.tail (bs ++ [⟨HDR_INUSE, blockSize size⟩]) i ≠ s.head := by
          rw [hheadpos]
          refine posAt_ne' s.tail _ hpos' (by rw [hsum']; exact hsum2) (by omega) ?_ ?_
          · simp only [List.length_append, List.length_cons, List.length_nil]; omega
          · simp only [List.length_append, List.length_cons, List.length_nil]; omega
        show writeHdr s.buf s.head _ _ = _
        rw [writeHdr]
        simp only [if_neg hne]
        rw [posAt_append_le s.tail bs _ (by omega), nthHdr_append_left bs _ hio]
        exact hv.hdrs i hio
      · have hieq : i = bs.length := by omega
        subst hieq
        show writeHdr s.buf s.head _ _ = _
        rw [writeHdr, ← hheadpos]
        simp only [if_pos rfl]
        have h0 := nthHdr_append_add bs [(⟨HDR_INUSE, blockSize size⟩ : Hdr)] 0
        simpa using h0.symm
    · exact gapOk_append hv.gaps HDR_INUSE_ne_GAP
    · show (s.head + blockSize size) % BUFFSIZE = _
      rw [hrem, Nat.add_zero]
    · rw [hp, hoff]
  case pos =>
    have hrem : remOf s size = BUFFSIZE - s.head := by rw [remOf, if_pos hw]
    have hoff : allocOffset s size = 0 := by rw [allocOffset, if_pos hw]
    have hblocks : allocBlocks s size =
        [⟨HDR_GAP, BUFFSIZE - s.head⟩, ⟨HDR_INUSE, blockSize size⟩] := by
      rw [allocBlocks, if_pos hw]
    have hhlt := hv.head_lt
    have hrempos : 0 < BUFFSIZE - s.head := by omega
    have hremne : BUFFSIZE - s.head ≠ 0 := by omega
    have hunwrap : s.tail + sumLen bs < BUFFSIZE := hv.tail_le_head_iff.mp hw.1
    have hheadex : s.head = s.tail + sumLen bs := by
      rw [hv.head_eq, Nat.mod_eq_of_lt hunwrap]
    have hremB : s.head + (BUFFSIZE - s.head) = BUFFSIZE := by omega
    rw [hrem] at hs2 hfail
    have hbz : blockSize size ≠ 0 := by omega
    have hs1 : circallocblock s (BUFFSIZE - s.head) HDR_GAP =
        ⟨writeHdr s.buf s.head ⟨HDR_GAP, BUFFSIZE - s.head⟩, 0, s.tail⟩ := by
      rw [circallocblock, if_neg hremne, hremB, Nat.mod_self]
    rw [hs1, circallocblock, if_neg hbz] at hs2
    dsimp only at hs2
    subst hs2
    rw [hblocks]
    have hfit : sumLen bs + (BUFFSIZE - s.head) + blockSize size < BUFFSIZE := by omega
    have hsum' : sumLen (bs ++ [⟨HDR_GAP, BUFFSIZE - s.head⟩, ⟨HDR_INUSE, blockSize size⟩]) =
        sumLen bs + ((BUFFSIZE - s.head) + blockSize size) := by
      rw [sumLen_append]; simp [sumLen]
    have hremal : 16 ∣ BUFFSIZE - s.head := Nat.dvd_sub' dvd16_BUFFSIZE hv.head_align
    have hpos' : ∀ b ∈ bs ++ [⟨HDR_GAP, BUFFSIZE - s.head⟩, ⟨HDR_INUSE, blockSize size⟩],
        0 < b.len := by
      intro x hx
      rcases List.mem_append.mp hx with h1 | h1
      · exact hv.len_pos x h1
      · rcases List.mem_cons.mp h1 with h2 | h2
        · subst h2; exact hrempos
        · simp at h2; subst h2; exact hbpos
    have hsumlt : sumLen (bs ++ [⟨HDR_GAP, BUFFSIZE - s.head⟩, ⟨HDR_INUSE, blockSize size⟩]) <
        BUFFSIZE := by rw [hsum']; omega
    have hlen' : (bs ++ [(⟨HDR_GAP, BUFFSIZE - s.head⟩ : Hdr), ⟨HDR_INUSE, blockSize size⟩]).length =
        bs.length + 2 := by
      simp only [List.length_append, List.length_cons, List.length_nil]
    have hheadpos : s.head =
        posAt s.tail (bs ++ [⟨HDR_GAP, BUFFSIZE - s.head⟩, ⟨HDR_INUSE, blockSize size⟩])
          bs.length := by
      rw [posAt, sumTo_append_le bs _ (Nat.le_refl _), sumTo_length, ← hv.head_eq]
    have hzeropos : (0 : Nat) =
        posAt s.tail (bs ++ [⟨HDR_GAP, BUFFSIZE - s.head⟩, ⟨HDR_INUSE, blockSize size⟩])
          (bs.length + 1) := by
      rw [posAt]
      have h1 := sumTo_append_add bs [(⟨HDR_GAP, BUFFSIZE - s.head⟩ : Hdr),
        ⟨HDR_INUSE, blockSize size⟩] 1
      rw [h1]
      have h2 : s.tail + (sumLen bs + sumTo [(⟨HDR_INUSE, blockSize size⟩ : Hdr)] 0) +
          (BUFFSIZE - s.head) = BUFFSIZE := by
        simp only [sumTo_zero]
        omega
      have h3 : sumTo [(⟨HDR_GAP, BUFFSIZE - s.head⟩ : Hdr), ⟨HDR_INUSE, blockSize size⟩] 1 =
          BUFFSIZE - s.head + 0 := rfl
      rw [h3]
      have h4 : s.tail + (sumLen bs + (BUFFSIZE - s.head + 0)) = BUFFSIZE := by omega
      rw [h4, Nat.mod_self]
    refine ⟨⟨?_, hv.tail_lt, hv.tail_align, hpos', ?_, ?_, ?_, ?_, ?_, ?_⟩, rfl, ?_, ?_⟩
    · exact mod_lt_BUFFSIZE _
    · intro x hx
      rcases List.mem_append.mp hx with h1 | h1
      · exact hv.len_align x h1
      · rcases List.mem_cons.mp h1 with h2 | h2
        · subst h2; exact hremal
        · simp at h2; subst h2; exact hbal
    · intro x hx
      rcases List.mem_append.mp hx with h1 | h1
      · exact hv.flags x h1
      · rcases List.mem_cons.mp h1 with h2 | h2
        · subst h2; exact Or.inr (Or.inr rfl)
        · simp at h2; subst h2; exact Or.inr (Or.inl rfl)
    · rw [hsum']
      refine align_le_sub ?_ (by omega)
      exact Nat.dvd_add hv.sum_align (Nat.dvd_add hremal hbal)
    · show (0 + blockSize size) % BUFFSIZE = _
      rw [hsum']
      have h4 : s.tail + (sumLen bs + (BUFFSIZE - s.head + blockSize size)) =
          BUFFSIZE + blockSize size := by omega
      rw [h4, Nat.add_mod_left, Nat.zero_add]
    · intro i hi
      rw [hlen'] at hi
      show writeHdr (writeHdr s.buf s.head _) 0 _ _ = _
      by_cases hio : i < bs.length
      · have hne0 : posAt s.tail (bs ++ [⟨HDR_GAP, BUFFSIZE - s.head⟩,
            ⟨HDR_INUSE, blockSize size⟩]) i ≠ 0 := by
          rw [hzeropos]
          exact posAt_ne' s.tail _ hpos' hsumlt (by omega) (by rw [hlen']; omega) (by rw [hlen']; omega)
        have hneh : posAt s.tail (bs ++ [⟨HDR_GAP, BUFFSIZE - s.head⟩,
            ⟨HDR_INUSE, blockSize size⟩]) i ≠ s.head := by
          have hx := posAt_ne' s.tail (bs ++ [(⟨HDR_GAP, BUFFSIZE - s.head⟩ : Hdr),
            ⟨HDR_INUSE, blockSize size⟩]) hpos' hsumlt
            (show i ≠ bs.length by omega) (by rw [hlen']; omega) (by rw [hlen']; omega)
          rw [← hheadpos] at hx
          exact hx
        rw [writeHdr]
        simp only [if_neg hne0]
        rw [writeHdr]
        simp only [if_neg hneh]
        rw [posAt_append_le s.tail bs _ (by omega), nthHdr_append_left bs _ hio]
        exact hv.hdrs i hio
      · by_cases hio2 : i = bs.length
        · subst hio2
          have hne0 : posAt s.tail (bs ++ [⟨HDR_GAP, BUFFSIZE - s.head⟩,
              ⟨HDR_INUSE, blockSize size⟩]) bs.length ≠ 0 := by
            rw [hzeropos]
            exact posAt_ne' s.tail _ hpos' hsumlt (by omega) (by rw [hlen']; omega) (by rw [hlen']; omega)
          rw [writeHdr]
          simp only [if_neg hne0]
          rw [writeHdr, ← hheadpos]
          simp only [if_pos rfl]
          have h0 := nthHdr_append_add bs [(⟨HDR_GAP, BUFFSIZE - s.head⟩ : Hdr),
            ⟨HDR_INUSE, blockSize size⟩] 0
          simpa using h0.symm
        · have hieq : i = bs.length + 1 := by omega
          subst hieq
          rw [writeHdr, ← hzeropos]
          simp only [if_pos rfl]
          have h0 := nthHdr_append_add bs [(⟨HDR_GAP, BUFFSIZE - s.head⟩ : Hdr),
            ⟨HDR_INUSE, blockSize size⟩] 1
          simpa using h0.symm
    · exact gapOk_append hv.gaps ⟨fun _ => HDR_INUSE_ne_GAP, HDR_INUSE_ne_GAP⟩
    · show (0 + blockSize size) % BUFFSIZE = _
      rw [hrem]
      have h4 : s.head + (BUFFSIZE - s.head) + blockSize size = BUFFSIZE + blockSize size := by
        omega
      rw [h4, Nat.add_mod_left, Nat.zero_add]
    · rw [hp, hoff]

/-! ### Soundness of `circfree` with respect to the ghost list -/

lemma HDR_FREE_ne_INUSE : HDR_FREE ≠ HDR_INUSE := by decide

lemma HDR_FREE_ne_GAP : HDR_FREE ≠ HDR_GAP := by decide

lemma HDR_GAP_ne_INUSE : HDR_GAP ≠ HDR_INUSE := by decide

/-- Effect on `Valid` of the flag write `meta->free = HDR_FREE` performed by
`circfree` on the block at index `i`. -/
lemma valid_mark {s : St} {bs : List Hdr} {i : Nat} (hv : Valid s bs)
    (hi : i < bs.length) (hfl : (nthHdr bs i).free = HDR_INUSE) :
    Valid ⟨writeHdr s.buf (posAt s.tail bs i) ⟨HDR_FREE, (nthHdr bs i).len⟩, s.head, s.tail⟩
      (setFree bs i) := by
  refine ⟨hv.head_lt, hv.tail_lt, hv.tail_align, ?_, ?_, ?_, ?_, ?_, ?_, ?_⟩
  · exact setFree_len_prop bs i _ hv.len_pos
  · exact setFree_len_prop bs i _ hv.len_align
  · exact setFree_flags bs i hv.flags
  · rw [sumLen_setFree]; exact hv.total
  · show s.head = _
    rw [sumLen_setFree]
    exact hv.head_eq
  · intro j hj
    rw [length_setFree] at hj
    show writeHdr s.buf (posAt s.tail bs i) _ (posAt s.tail (setFree bs i) j) = _
    rw [posAt_setFree]
    by_cases hji : j = i
    · subst hji
      rw [writeHdr]
      simp only [if_pos rfl]
      exact (nthHdr_setFree_self bs hj).symm
    · rw [writeHdr]
      have hne := posAt_ne' s.tail bs hv.len_pos hv.sum_lt hji (by omega) (by omega)
      simp only [if_neg hne]
      rw [nthHdr_setFree_other bs hji]
      exact hv.hdrs j hj
  · exact gapOk_setFree bs i hv.gaps (by rw [hfl]; exact HDR_INUSE_ne_GAP)

/-- Unfolding one walk step on an in-use header: the walk returns. -/
lemma circfreeLoop_step_inuse (fuel : Nat) (s : St) (metaPos : Nat) (gmeta : Option Hdr)
    (h : (s.buf metaPos).free = HDR_INUSE) :
    circfreeLoop (fuel + 1) s metaPos gmeta = s := by
  cases gmeta <;> simp [circfreeLoop, h]

/-- Unfolding one walk step on a gap header: remember it and look past it. -/
lemma circfreeLoop_step_gap (fuel : Nat) (s : St) (metaPos : Nat) (gmeta : Option Hdr)
    (h : (s.buf metaPos).free = HDR_GAP) (hht : s.head ≠ s.tail) :
    circfreeLoop (fuel + 1) s metaPos gmeta =
      circfreeLoop fuel s ((s.tail + (s.buf metaPos).len) % BUFFSIZE)
        (some (s.buf metaPos)) := by
  cases gmeta <;> simp [circfreeLoop, h, HDR_GAP_ne_INUSE, hht]

/-- Unfolding one walk step on a freed header with no pending gap. -/
lemma circfreeLoop_step_free_none (fuel : Nat) (s : St) (metaPos : Nat)
    (h : (s.buf metaPos).free = HDR_FREE) :
    circfreeLoop (fuel + 1) s metaPos none =
      (if s.head ≠ (s.tail + (s.buf metaPos).len) % BUFFSIZE then
        circfreeLoop fuel (⟨s.buf, s.head, (s.tail + (s.buf metaPos).len) % BUFFSIZE⟩ : St)
          ((s.tail + (s.buf metaPos).len) % BUFFSIZE) none
      else (⟨s.buf, s.head, (s.tail + (s.buf metaPos).len) % BUFFSIZE⟩ : St)) := by
  simp [circfreeLoop, h, HDR_FREE_ne_INUSE, HDR_FREE_ne_GAP]

/-- Unfolding one walk step on a freed header with a pending gap header. -/
lemma circfreeLoop_step_free_some (fuel : Nat) (s : St) (metaPos : Nat) (g : Hdr)
    (h : (s.buf metaPos).free = HDR_FREE) :
    circfreeLoop (fuel + 1) s metaPos (some g) =
      (if s.head ≠ ((s.tail + g.len) % BUFFSIZE + (s.buf metaPos).len) % BUFFSIZE then
        circfreeLoop fuel
          (⟨s.buf, s.head,
            ((s.tail + g.len) % BUFFSIZE + (s.buf metaPos).len) % BUFFSIZE⟩ : St)
          (((s.tail + g.len) % BUFFSIZE + (s.buf metaPos).len) % BUFFSIZE) none
      else (⟨s.buf, s.head,
        ((s.tail + g.len) % BUFFSIZE + (s.buf metaPos).len) % BUFFSIZE⟩ : St)) := by
  simp [circfreeLoop, h, HDR_FREE_ne_INUSE, HDR_FREE_ne_GAP]

/-- The retirement walk of `circfree`, started at the tail with no pending gap,
computes exactly the `cascade` of the ghost list: it advances the tail by the
total length of the dropped prefix, changes nothing else, and preserves the
coupling invariant. -/
lemma circfreeLoop_sim_aux : ∀ (n : Nat) (bs : List Hdr) (s : St) (fuel : Nat),
    bs.length ≤ n → Valid s bs → bs ≠ [] → bs.length + 1 ≤ fuel →
    circfreeLoop fuel s s.tail none =
      ⟨s.buf, s.head, (s.tail + (sumLen bs - sumLen (cascade bs))) % BUFFSIZE⟩ ∧
    Valid (⟨s.buf, s.head, (s.tail + (sumLen bs - sumLen (cascade bs))) % BUFFSIZE⟩ : St)
      (cascade bs) := by
  intro n
  induction n with
  | zero =>
    intro bs s fuel hn hv hne hf
    exact absurd (List.eq_nil_of_length_eq_zero (by omega)) hne
  | succ n ih =>
    intro bs s fuel hn hv hne hf
    cases bs with
    | nil => exact absurd rfl hne
    | cons b rest =>
      cases fuel with
      | zero => simp only [List.length_cons] at hf; omega
      | succ f =>
        have hmeta : s.buf s.tail = b := by
          have h0 := hv.hdrs 0 (by simp)
          rw [posAt_zero, Nat.mod_eq_of_lt hv.tail_lt] at h0
          simpa using h0
        rcases hv.flags b (List.mem_cons_self b rest) with hb | hb | hb
        · -- front block freed: drop it and continue
          have hcas : cascade (b :: rest) = cascade rest := cascade_cons_free hb
          have hv' : Valid (⟨s.buf, s.head, (s.tail + b.len) % BUFFSIZE⟩ : St) rest :=
            valid_dropFront hv
          have hstep := circfreeLoop_step_free_none f s s.tail (by rw [hmeta]; exact hb)
          rw [hmeta] at hstep
          have hiff : s.head = (s.tail + b.len) % BUFFSIZE ↔ rest = [] :=
            hv'.head_eq_tail_iff
          by_cases hrest : rest = []
          · subst hrest
            rw [hstep, if_neg (by intro hcon; exact hcon (hiff.mpr rfl))]
            have htl : (s.tail + (sumLen [b] - sumLen (cascade [b]))) % BUFFSIZE =
                (s.tail + b.len) % BUFFSIZE := by
              rw [hcas, cascade_nil]
              simp
            rw [htl, hcas, cascade_nil]
            exact ⟨rfl, hv'⟩
          · have hhd : s.head ≠ (s.tail + b.len) % BUFFSIZE := fun he => hrest (hiff.mp he)
            rw [hstep, if_pos hhd]
            obtain ⟨ihq, ihv⟩ := ih rest (⟨s.buf, s.head, (s.tail + b.len) % BUFFSIZE⟩ : St) f
              (by simp only [List.length_cons] at hn; omega) hv' hrest
              (by simp only [List.length_cons] at hf; omega)
            have htl : ((s.tail + b.len) % BUFFSIZE +
                (sumLen rest - sumLen (cascade rest))) % BUFFSIZE =
                (s.tail + (sumLen (b :: rest) - sumLen (cascade (b :: rest)))) % BUFFSIZE := by
              rw [hcas, Nat.mod_add_mod, sumLen_cons]
              congr 1
              have := sumLen_cascade_le rest
              omega
            refine ⟨?_, ?_⟩
            · rw [ihq]
              show (⟨s.buf, s.head, _⟩ : St) = (⟨s.buf, s.head, _⟩ : St)
              rw [htl]
            · rw [← htl, hcas]
              exact ihv
        · -- front block still in use: the walk stops at once
          have hcas : cascade (b :: rest) = b :: rest := cascade_cons_inuse hb
          have htl : (s.tail + (sumLen (b :: rest) - sumLen (cascade (b :: rest)))) % BUFFSIZE =
              s.tail := by
            rw [hcas, Nat.sub_self, Nat.add_zero, Nat.mod_eq_of_lt hv.tail_lt]
          rw [htl, hcas]
          exact ⟨circfreeLoop_step_inuse f s s.tail none (by rw [hmeta]; exact hb), hv⟩
        · -- front block is a gap: inspect its successor
          obtain ⟨c, rest2, hrest, hcg⟩ := gapOk_head_gap hv.gaps hb
          subst hrest
          have hht : s.head ≠ s.tail := hv.head_ne_tail (by simp)
          have hmeta2 : s.buf ((s.tail + b.len) % BUFFSIZE) = c := by
            have h1 := hv.hdrs 1 (by simp)
            simp only [posAt, sumTo_cons_succ, sumTo_zero, Nat.add_zero, nthHdr_cons_succ,
              nthHdr_cons_zero] at h1
            exact h1
          have hstep := circfreeLoop_step_gap f s s.tail none (by rw [hmeta]; exact hb) hht
          rw [hmeta] at hstep
          cases f with
          | zero => simp only [List.length_cons] at hf; omega
          | succ f2 =>
            rcases hv.flags c (List.mem_cons_of_mem b (List.mem_cons_self c rest2))
              with hc | hc | hc
            · -- gap followed by a freed block: retire both and continue
              have hcas : cascade (b :: c :: rest2) = cascade rest2 := cascade_gap_free hb hc
              have hv1 : Valid (⟨s.buf, s.head, (s.tail + b.len) % BUFFSIZE⟩ : St)
                  (c :: rest2) := valid_dropFront hv
              have hv2 : Valid (⟨s.buf, s.head,
                  ((s.tail + b.len) % BUFFSIZE + c.len) % BUFFSIZE⟩ : St) rest2 :=
                valid_dropFront hv1
              have hstep2 := circfreeLoop_step_free_some f2 s ((s.tail + b.len) % BUFFSIZE) b
                (by rw [hmeta2]; exact hc)
              rw [hmeta2] at hstep2
              have hiff2 : s.head = ((s.tail + b.len) % BUFFSIZE + c.len) % BUFFSIZE ↔
                  rest2 = [] := hv2.head_eq_tail_iff
              by_cases hrest2 : rest2 = []
              · subst hrest2
                rw [hstep, hstep2, if_neg (by intro hcon; exact hcon (hiff2.mpr rfl))]
                have htl : (s.tail +
                    (sumLen (b :: c :: []) - sumLen (cascade (b :: c :: [])))) % BUFFSIZE =
                    ((s.tail + b.len) % BUFFSIZE + c.len) % BUFFSIZE := by
                  rw [hcas, cascade_nil, Nat.mod_add_mod]
                  simp only [sumLen_cons, sumLen_nil, Nat.add_zero, Nat.sub_zero,
                    Nat.add_assoc]
                rw [htl, hcas, cascade_nil]
                exact ⟨rfl, hv2⟩
              · have hhd2 : s.head ≠ ((s.tail + b.len) % BUFFSIZE + c.len) % BUFFSIZE :=
                  fun he => hrest2 (hiff2.mp he)
                rw [hstep, hstep2, if_pos hhd2]
                obtain ⟨ihq, ihv⟩ := ih rest2 (⟨s.buf, s.head,
                    ((s.tail + b.len) % BUFFSIZE + c.len) % BUFFSIZE⟩ : St) f2
                  (by simp only [List.length_cons] at hn; omega) hv2 hrest2
                  (by simp only [List.length_cons] at hf; omega)
                have htl : (((s.tail + b.len) % BUFFSIZE + c.len) % BUFFSIZE +
                    (sumLen rest2 - sumLen (cascade rest2))) % BUFFSIZE =
                    (s.tail +
                      (sumLen (b :: c :: rest2) - sumLen (cascade (b :: c :: rest2)))) %
                      BUFFSIZE := by
                  rw [hcas, Nat.mod_add_mod, Nat.add_assoc, Nat.mod_add_mod, sumLen_cons,
                    sumLen_cons]
                  congr 1
                  have := sumLen_cascade_le rest2
                  omega
                refine ⟨?_, ?_⟩
                · rw [ihq]
                  show (⟨s.buf, s.head, _⟩ : St) = (⟨s.buf, s.head, _⟩ : St)
                  rw [htl]
                · rw [← htl, hcas]
                  exact ihv
            · -- gap followed by an in-use block: the walk stops, tail untouched
              have hcas : cascade (b :: c :: rest2) = b :: c :: rest2 :=
                cascade_gap_keep hb (by rw [hc]; exact HDR_INUSE_ne_FREE)
              have htl : (s.tail +
                  (sumLen (b :: c :: rest2) - sumLen (cascade (b :: c :: rest2)))) % BUFFSIZE =
                  s.tail := by
                rw [hcas, Nat.sub_self, Nat.add_zero, Nat.mod_eq_of_lt hv.tail_lt]
              rw [htl, hcas]
              refine ⟨?_, hv⟩
              rw [hstep]
              exact circfreeLoop_step_inuse f2 s ((s.tail + b.len) % BUFFSIZE) (some b)
                (by rw [hmeta2]; exact hc)
            · exact absurd hc hcg

lemma sumLen_ge (bs : List Hdr) (h : ∀ b ∈ bs, 16 ≤ b.len) :
    16 * bs.length ≤ sumLen bs := by
  induction bs with
  | nil => simp
  | cons b rest ih =>
    have hb := h b (List.mem_cons_self b rest)
    have hr := ih (fun x hx => h x (List.mem_cons_of_mem b hx))
    simp only [sumLen_cons, List.length_cons]
    omega

lemma length_le_of_valid {s : St} {bs : List Hdr} (hv : Valid s bs) : bs.length ≤ 127 := by
  have h16 : ∀ b ∈ bs, 16 ≤ b.len := by
    intro b hb
    have h1 := hv.len_pos b hb
    obtain ⟨k, hk⟩ := hv.len_align b hb
    omega
  have h2 := sumLen_ge bs h16
  have h3 := hv.total
  have hB : BUFFSIZE = 2048 := rfl
  omega

/-- `circfree`, called on the payload offset of the i-th ghost block while
that block is in use: it flips that block's header flag to `HDR_FREE`, leaves
every other header and the head untouched, advances the tail by exactly the
prefix that the cascade retires, and preserves the coupling invariant. -/
theorem circfree_sound {s : St} {bs : List Hdr} {i : Nat} (hv : Valid s bs)
    (hi : i < bs.length) (hfl : (nthHdr bs i).free = HDR_INUSE) :
    circfree s (posAt s.tail bs i + 8) =
      ⟨writeHdr s.buf (posAt s.tail bs i) ⟨HDR_FREE, (nthHdr bs i).len⟩, s.head,
        (s.tail + (sumLen bs - sumLen (cascade (setFree bs i)))) % BUFFSIZE⟩ ∧
    Valid (⟨writeHdr s.buf (posAt s.tail bs i) ⟨HDR_FREE, (nthHdr bs i).len⟩, s.head,
        (s.tail + (sumLen bs - sumLen (cascade (setFree bs i)))) % BUFFSIZE⟩ : St)
      (cascade (setFree bs i)) := by
  have hmark := valid_mark hv hi hfl
  have hne : setFree bs i ≠ [] := by
    intro h
    have h2 := length_setFree bs i
    rw [h] at h2
    simp at h2
    omega
  have hlen127 := length_le_of_valid hv
  have hfuel : (setFree bs i).length + 1 ≤ BUFFSIZE := by
    rw [length_setFree]
    have hB : BUFFSIZE = 2048 := rfl
    omega
  obtain ⟨hq, hvres⟩ := circfreeLoop_sim_aux (setFree bs i).length (setFree bs i)
    (⟨writeHdr s.buf (posAt s.tail bs i) ⟨HDR_FREE, (nthHdr bs i).len⟩, s.head, s.tail⟩ : St)
    BUFFSIZE (Nat.le_refl _) hmark hne hfuel
  have hq' : circfreeLoop BUFFSIZE (⟨writeHdr s.buf (posAt s.tail bs i)
      ⟨HDR_FREE, (nthHdr bs i).len⟩, s.head, s.tail⟩ : St) s.tail none =
      ⟨writeHdr s.buf (posAt s.tail bs i) ⟨HDR_FREE, (nthHdr bs i).len⟩, s.head,
        (s.tail + (sumLen (setFree bs i) - sumLen (cascade (setFree bs i)))) % BUFFSIZE⟩ := hq
  have hvres' : Valid (⟨writeHdr s.buf (posAt s.tail bs i) ⟨HDR_FREE, (nthHdr bs i).len⟩,
      s.head, (s.tail + (sumLen (setFree bs i) - sumLen (cascade (setFree bs i)))) %
        BUFFSIZE⟩ : St) (cascade (setFree bs i)) := hvres
  rw [sumLen_setFree] at hq' hvres'
  have haddr : posAt s.tail bs i + 8 - 8 = posAt s.tail bs i := by omega
  have hread : s.buf (posAt s.tail bs i) = nthHdr bs i := hv.hdrs i hi
  have hcf : circfree s (posAt s.tail bs i + 8) =
      circfreeLoop BUFFSIZE (⟨writeHdr s.buf (posAt s.tail bs i)
        ⟨HDR_FREE, (nthHdr bs i).len⟩, s.head, s.tail⟩ : St) s.tail none := by
    simp only [circfree, haddr, hread]
  rw [hcf]
  exact ⟨hq', hvres'⟩

/-- Every reachable state satisfies the coupling invariant with its ghost
block list. -/
theorem reach_valid {s : St} {bs : List Hdr} (h : Reach s bs) : Valid s bs := by
  induction h with
  | init =>
    exact ⟨by decide, by decide, ⟨0, rfl⟩, by simp, by simp, by simp, by decide, by decide,
      by simp, trivial⟩
  | allocOk h1 h2 ih => exact (circalloc_sound ih h2).1
  | freeStep h1 hi hfl ih =>
    rw [(circfree_sound ih hi hfl).1]
    exact (circfree_sound ih hi hfl).2

/-! ### Concrete states used by the source's test scenarios -/

/-- A state preloaded with `head = tail = 2000` as in tests 4 and 5 of the
source (`head = BUFFSIZE - 48`). -/
def stWrap : St := ⟨fun _ => ⟨0, 0⟩, 2000, 2000⟩

/-- The cursor state `tail = 0x200`, `head = 0x190` reached in test 6 of the
source after `alloc(1500)`, `alloc(250)`, `alloc(120)` from
`head = tail = 512` (only the cursors matter to `circalloc`). -/
def stMid : St := ⟨fun _ => ⟨0, 0⟩, 0x190, 0x200⟩

/-- The state after `alloc(10)`, `alloc(8)`, `alloc(1001)` from the initial
state (tests 1-3 of the source); the returned payload offsets are `0x8`,
`0x28` and `0x38`, and `head = 0x430`. -/
def stABC : St := (circalloc (circalloc (circalloc st0 10).1 8).1 1001).1

/-- The ghost block list accompanying `stABC`. -/
def bsABC : List Hdr :=
  (([] ++ allocBlocks st0 10) ++ allocBlocks (circalloc st0 10).1 8) ++
    allocBlocks (circalloc (circalloc st0 10).1 8).1 1001

/-- `stABC` is reachable by three successful allocations. -/
theorem reach_stABC : Reach stABC bsABC :=
  Reach.allocOk (Reach.allocOk (Reach.allocOk Reach.init rfl) rfl) rfl

/-! ### Helper lemmas for the claim theorems -/

lemma circallocblock_head (s : St) (sz u : Nat) :
    (circallocblock s sz u).head = if sz = 0 then s.head else (s.head + sz) % BUFFSIZE := by
  rw [circallocblock]
  split <;> rfl

lemma circallocblock_tail (s : St) (sz u : Nat) :
    (circallocblock s sz u).tail = s.tail := by
  rw [circallocblock]
  split <;> rfl

/-- Pointers returned by `circalloc` sit 8 bytes past a 16-byte aligned block
start, provided `head` is 16-byte aligned. -/
lemma alloc_ptr_mod {s : St} {size : Nat} {s2 : St} {p : Nat}
    (hal : 16 ∣ s.head) (h : circalloc s size = (s2, some p)) : p % 16 = 8 := by
  obtain ⟨-, -, hp⟩ := circalloc_success h
  rw [hp, allocOffset]
  by_cases hw : s.tail ≤ s.head ∧ BUFFSIZE - s.head < blockSize size
  · rw [if_pos hw]
  · rw [if_neg hw]
    obtain ⟨k, hk⟩ := hal
    omega

/-- A reachable ghost list with no in-use block is empty: an allocation
always leaves an in-use block behind, and the cascade of the last free
retires everything once no in-use block remains. -/
lemma reach_no_inuse_nil {s : St} {bs : List Hdr} (hr : Reach s bs) :
    (∀ b ∈ bs, b.free ≠ HDR_INUSE) → bs = [] := by
  induction hr with
  | init => intro _; rfl
  | allocOk h1 h2 ih =>
    rename_i s1 bs1 size1 s21 p1
    intro hnone
    exfalso
    have hmem : (⟨HDR_INUSE, blockSize size1⟩ : Hdr) ∈ allocBlocks s1 size1 := by
      rw [allocBlocks]
      split <;> simp
    exact absurd rfl (hnone _ (List.mem_append_right _ hmem))
  | freeStep h1 hi hfl ih =>
    intro hnone
    by_contra hne
    have hv := reach_valid h1
    obtain ⟨b, hb, hbI⟩ := cascade_inuse (setFree _ _)
      (gapOk_setFree _ _ hv.gaps (by rw [hfl]; exact HDR_INUSE_ne_GAP))
      (setFree_flags _ _ hv.flags) hne
    exact (hnone b hb) hbI

/-! ### The claims -/

/-- C1, counterexample: from the freshly initialised allocator, `alloc(10)`
succeeds and returns the offset 8, which is not 16-byte aligned — the payload
begins `sizeof(struct hdr) = 8` bytes past the 16-byte aligned block start,
not 16 bytes past it. -/
theorem c1_counterexample : (circalloc st0 10).2 = some 8 ∧ ¬ ((8 : Nat) % 16 = 0) := by
  decide

/-- C1, amended: for every successful call `alloc(size)` from a state whose
`head` is 16-byte aligned, the returned pointer lies exactly
`sizeof(struct hdr) = 8` bytes past the 16-byte aligned start of its block:
its byte offset from the buffer satisfies `p mod 16 == 8`, and the payload
begins at `block_start + 8`. -/
theorem c1_ptr_alignment {s : St} {size : Nat} {s2 : St} {p : Nat}
    (hal : 16 ∣ s.head) (h : circalloc s size = (s2, some p)) : p % 16 = 8 :=
  alloc_ptr_mod hal h

/-- C1, witness: the amended claim applied to `alloc(10)` from the initial
state. -/
theorem c1_witness : (8 : Nat) % 16 = 8 :=
  @c1_ptr_alignment st0 10 (circalloc st0 10).1 8 ⟨0, rfl⟩ rfl

/-- C2, counterexample: for `size = 8` the code reserves
`(8 + 8 + 15) & ~0xF = 16` bytes in total (header included) — from the
initial state `alloc(8)` advances `head` from 0 to 16 — and not the
`round_up(8, 16) + 16 = 32` bytes the claim states. -/
theorem c2_counterexample :
    (circalloc st0 8).1.head = 16 ∧ specNsize 8 = 32 ∧ ¬ ((16 : Nat) = 32) := by
  decide

/-- C2, amended: every successful `alloc(size)` advances `head` by exactly
the reservation `rem + nsize` (modulo the buffer size), where the block
length is `nsize = blockSize size = round_up(size + 8, 16)` — the request
plus the 8-byte header rounded up to 16, a positive multiple of 16.  This
equals the spec's `round_up(size, 16) + 16` only when `size mod 16` is 0 or
at least 9. -/
theorem c2_reservation {s : St} {size : Nat} {s2 : St} {p : Nat}
    (h : circalloc s size = (s2, some p)) :
    s2.head = (s.head + remOf s size + blockSize size) % BUFFSIZE ∧
    blockSize size = roundUp (size + 8) 16 ∧ 0 < blockSize size ∧ 16 ∣ blockSize size := by
  obtain ⟨hfail, hs2, hp⟩ := circalloc_success h
  have hbz : blockSize size ≠ 0 := by have := blockSize_pos size; omega
  refine ⟨?_, ?_, blockSize_pos size, blockSize_dvd size⟩
  · rw [hs2, circallocblock_head, if_neg hbz, circallocblock_head]
    by_cases hrem : remOf s size = 0
    · rw [if_pos hrem, hrem, Nat.add_zero]
    · rw [if_neg hrem, Nat.mod_add_mod]
  · have h15 : size + 8 + 15 = size + 8 + 16 - 1 := by omega
    show (size + 8 + 15) / 16 * 16 = (size + 8 + 16 - 1) / 16 * 16
    rw [h15]

/-- C2, witness: the amended claim applied to `alloc(8)` from the initial
state. -/
theorem c2_witness :
    (circalloc st0 8).1.head = (st0.head + remOf st0 8 + blockSize 8) % BUFFSIZE ∧
    blockSize 8 = roundUp (8 + 8) 16 ∧ 0 < blockSize 8 ∧ 16 ∣ blockSize 8 :=
  @c2_reservation st0 8 (circalloc st0 8).1 8 rfl

/-- C3, counterexample: with `head = tail = 2000` in the 2048-byte buffer,
`alloc(30)` needs 48 bytes, which fit exactly before the physical end of the
arena, so nothing wraps early: `head` becomes 0 (not `0x20`) and the
returned pointer is at offset 2008 (not 16). -/
theorem c3_counterexample :
    (circalloc stWrap 30).1.head = 0 ∧ ¬ ((circalloc stWrap 30).1.head = 0x20) ∧
    (circalloc stWrap 30).2 = some 2008 ∧ ¬ ((circalloc stWrap 30).2 = some 16) := by
  decide

/-- C3, amended: from `head = tail = 2000` in the 2048-byte buffer,
`alloc(30)` reserves 48 bytes that exactly fill the tail of the arena: the
block is written at offset 2000, the returned payload offset is 2008, and
`head` wraps to 0 while `tail` stays 2000; a subsequent `alloc(20)` reserves
32 bytes at offset 0, returns payload offset 8, and leaves `head` at `0x20`
(matching the source's test 4). -/
theorem c3_exact_fit_wrap :
    (circalloc stWrap 30).2 = some 2008 ∧
    (circalloc stWrap 30).1.head = 0 ∧
    (circalloc stWrap 30).1.tail = 2000 ∧
    (circalloc stWrap 30).1.buf 2000 = ⟨HDR_INUSE, 48⟩ ∧
    (circalloc (circalloc stWrap 30).1 20).2 = some 8 ∧
    (circalloc (circalloc stWrap 30).1 20).1.head = 0x20 := by
  decide

/-- C4, counterexample: with `head = tail = 2000`, `alloc(1000)` wraps with a
gap block and returns the payload offset 8 (`Buffer + 8`), not `Buffer + 16`
as the claim states. -/
theorem c4_counterexample :
    (circalloc stWrap 1000).2 = some 8 ∧ ¬ ((circalloc stWrap 1000).2 = some 16) := by
  decide

/-- C4, amended: from `head = tail = 2000`, `alloc(1000)` does not fit in the
48 bytes before the physical end: it reserves a 48-byte gap block at offset
2000 — marked with the in-band flag `HDR_GAP`, the prototype's no-owner
marker — immediately followed by the real 1008-byte block at offset 0,
returns the payload offset 8 (the header is 8 bytes, so `Buffer + 8`, not
`Buffer + 16`), and leaves `head` at `0x3F0` with `tail` still 2000. -/
theorem c4_gap_insertion :
    (circalloc stWrap 1000).2 = some 8 ∧
    (circalloc stWrap 1000).1.buf 2000 = ⟨HDR_GAP, 48⟩ ∧
    (circalloc stWrap 1000).1.buf 0 = ⟨HDR_INUSE, 1008⟩ ∧
    (circalloc stWrap 1000).1.head = 0x3F0 ∧
    (circalloc stWrap 1000).1.tail = 2000 := by
  decide

/-- C5, counterexample: with `tail = 0x200` and `head = 0x190` (112 free
bytes), `alloc(104)` needs `rsize = 112`, so `L_B + rsize = N_B` exactly —
the claim (fail iff `L_B + rsize > N_B`) predicts a non-null pointer, but
the code returns null: the test is `avail() <= block_size + rem`, equality
included. -/
theorem c5_counterexample :
    (BUFFSIZE - avail stMid) + rsize stMid 104 ≤ BUFFSIZE ∧
    (circalloc stMid 104).2 = none := by
  decide

/-- C5, amended: `alloc` returns the null sentinel if and only if the total
reservation `rsize` (the block plus any wrap gap) is at least the free
space: `avail ≤ rsize`, equivalently `L_B + rsize ≥ N_B` — the boundary case
`L_B + rsize = N_B` also fails, which keeps `head = tail` unambiguous — and
it returns a non-null pointer otherwise. -/
theorem c5_failure_condition {s : St} (size : Nat) (h1 : s.head < BUFFSIZE)
    (h2 : s.tail < BUFFSIZE) :
    ((circalloc s size).2 = none ↔ avail s ≤ rsize s size) ∧
    ((circalloc s size).2 = none ↔ BUFFSIZE ≤ (BUFFSIZE - avail s) + rsize s size) := by
  have havB : avail s ≤ BUFFSIZE := by
    rw [avail]
    split <;> omega
  have hiff1 : (circalloc s size).2 = none ↔ avail s ≤ rsize s size := by
    by_cases hc : avail s ≤ blockSize size + remOf s size
    · rw [circalloc, if_pos hc]
      simp only [rsize]
      exact ⟨fun _ => hc, fun _ => trivial⟩
    · rw [circalloc, if_neg hc]
      simp only [rsize]
      constructor
      · intro hx
        exact absurd hx (by simp)
      · intro hx
        exact absurd hx hc
  refine ⟨hiff1, ?_⟩
  rw [hiff1]
  constructor <;> intro <;> omega

/-- C5, witness: the amended claim applied at the test-6 boundary state. -/
theorem c5_witness :
    (((circalloc stMid 104).2 = none ↔ avail stMid ≤ rsize stMid 104) ∧
     ((circalloc stMid 104).2 = none ↔
       BUFFSIZE ≤ (BUFFSIZE - avail stMid) + rsize stMid 104)) :=
  @c5_failure_condition stMid 104 (by decide) (by decide)

/-- C6: in every reachable state, `head = tail` holds exactly when no blocks
(in use, freed-but-unretired, or gap) are outstanding — never a
full-equals-empty ambiguity; and concretely, with `tail = 0x200` and
`head = 0x190` in the 2048-byte buffer, `alloc(104)` — whose 112-byte
reservation would exactly exhaust the space and collapse `head` onto `tail`
with blocks live — returns null, while `alloc(88)` succeeds and moves `head`
to `0x1F0`. -/
theorem c6_empty_iff {s : St} {bs : List Hdr} (h : Reach s bs) :
    (s.head = s.tail ↔ bs = []) ∧
    (circalloc stMid 104).2 = none ∧
    (circalloc stMid 88).2 = some 0x198 ∧
    (circalloc stMid 88).1.head = 0x1F0 ∧
    (circalloc stMid 88).1.tail = 0x200 :=
  ⟨(reach_valid h).head_eq_tail_iff, by decide, by decide, by decide, by decide⟩

/-- C6, witness: the claim applied to the initial (empty, reachable) state. -/
theorem c6_witness :
    (st0.head = st0.tail ↔ ([] : List Hdr) = []) ∧
    (circalloc stMid 104).2 = none ∧
    (circalloc stMid 88).2 = some 0x198 ∧
    (circalloc stMid 88).1.head = 0x1F0 ∧
    (circalloc stMid 88).1.tail = 0x200 :=
  c6_empty_iff Reach.init

/-- C7: frame property of a middle free.  If the freed block is not the tail
block and the tail block is still in use, `circfree` changes only the freed
block's header flag — its length, every other header, `head` and `tail` are
all unchanged.  A later free that does clear the tail block then cascades
the tail forward through the flagged blocks in one walk, as in the
out-of-order scenario of the source's test 2: after `alloc(10)`, `alloc(8)`,
`alloc(1001)`, `free(p2)` only flips p2's flag (tail stays 0, the other two
headers stay in use), then `free(p1)` cascades the tail to `0x30` and
`free(p3)` to `0x430`. -/
theorem c7_middle_free_frame :
    (∀ (s : St) (bs : List Hdr) (i : Nat), Reach s bs → i < bs.length → i ≠ 0 →
      (nthHdr bs i).free = HDR_INUSE → (nthHdr bs 0).free = HDR_INUSE →
      (circfree s (posAt s.tail bs i + 8)).head = s.head ∧
      (circfree s (posAt s.tail bs i + 8)).tail = s.tail ∧
      (circfree s (posAt s.tail bs i + 8)).buf (posAt s.tail bs i) =
        ⟨HDR_FREE, (nthHdr bs i).len⟩ ∧
      (∀ x, x ≠ posAt s.tail bs i →
        (circfree s (posAt s.tail bs i + 8)).buf x = s.buf x)) ∧
    ((circfree stABC 0x28).tail = 0 ∧ (circfree stABC 0x28).head = 0x430 ∧
     (circfree stABC 0x28).buf 0x20 = ⟨HDR_FREE, 16⟩ ∧
     (circfree stABC 0x28).buf 0 = ⟨HDR_INUSE, 32⟩ ∧
     (circfree stABC 0x28).buf 0x30 = ⟨HDR_INUSE, 0x400⟩ ∧
     (circfree (circfree stABC 0x28) 0x8).tail = 0x30 ∧
     (circfree (circfree (circfree stABC 0x28) 0x8) 0x38).tail = 0x430) := by
  constructor
  · intro s bs i hr hi hne0 hfl htail
    have hv := reach_valid hr
    have hcaseq : cascade (setFree bs i) = setFree bs i := by
      cases bs with
      | nil => simp at hi
      | cons b rest =>
        cases i with
        | zero => exact absurd rfl hne0
        | succ j =>
          rw [setFree_cons_succ]
          exact cascade_cons_inuse (by simpa using htail)
    obtain ⟨hq, -⟩ := circfree_sound hv hi hfl
    rw [hq]
    have htl : (s.tail + (sumLen bs - sumLen (cascade (setFree bs i)))) % BUFFSIZE =
        s.tail := by
      rw [hcaseq, sumLen_setFree, Nat.sub_self, Nat.add_zero, Nat.mod_eq_of_lt hv.tail_lt]
    refine ⟨rfl, ?_, ?_, ?_⟩
    · exact htl
    · show writeHdr s.buf (posAt s.tail bs i) _ _ = _
      simp [writeHdr]
    · intro x hx
      show writeHdr s.buf (posAt s.tail bs i) _ x = s.buf x
      simp [writeHdr, hx]
  · decide

/-- C7, witness: the frame property applied to freeing the middle block of
the three-block reachable state `stABC` (payload offset `0x28`). -/
theorem c7_witness :
    (circfree stABC (posAt stABC.tail bsABC 1 + 8)).head = stABC.head ∧
    (circfree stABC (posAt stABC.tail bsABC 1 + 8)).tail = stABC.tail ∧
    (circfree stABC (posAt stABC.tail bsABC 1 + 8)).buf (posAt stABC.tail bsABC 1) =
      ⟨HDR_FREE, (nthHdr bsABC 1).len⟩ ∧
    (∀ x, x ≠ posAt stABC.tail bsABC 1 →
      (circfree stABC (posAt stABC.tail bsABC 1 + 8)).buf x = stABC.buf x) :=
  c7_middle_free_frame.1 stABC bsABC 1 reach_stABC (by decide) (by decide) (by decide)
    (by decide)

/-- C8: FIFO on the tail.  An allocation never moves the tail; a valid free
retires exactly a front segment of the ghost list consisting only of freed
and gap blocks — never a block whose owner has not freed it — and advances
the tail forward (modulo the buffer size) by precisely the total length of
those retired blocks; freeing a middle block therefore moves nothing until
all older blocks are freed too. -/
theorem c8_fifo_tail :
    (∀ (s : St) (size : Nat), (circalloc s size).1.tail = s.tail) ∧
    (∀ (s : St) (bs : List Hdr) (i : Nat), Reach s bs → i < bs.length →
      (nthHdr bs i).free = HDR_INUSE →
      ∃ ds, setFree bs i = ds ++ cascade (setFree bs i) ∧
        (∀ b ∈ ds, b.free = HDR_FREE ∨ b.free = HDR_GAP) ∧
        (circfree s (posAt s.tail bs i + 8)).tail = (s.tail + sumLen ds) % BUFFSIZE) := by
  constructor
  · intro s size
    rw [circalloc]
    split
    · rfl
    · rw [circallocblock_tail, circallocblock_tail]
  · intro s bs i hr hi hfl
    have hv := reach_valid hr
    obtain ⟨hq, -⟩ := circfree_sound hv hi hfl
    obtain ⟨ds, hds, hni⟩ := cascade_prefix (setFree bs i)
    refine ⟨ds, hds, ?_, ?_⟩
    · intro b hb
      have h1 := hni b hb
      have hmem : b ∈ setFree bs i := by
        have h2 : b ∈ ds ++ cascade (setFree bs i) := List.mem_append_left _ hb
        rw [← hds] at h2
        exact h2
      rcases setFree_flags bs i hv.flags b hmem with h | h | h
      · exact Or.inl h
      · exact absurd h h1
      · exact Or.inr h
    · rw [hq]
      show (s.tail + (sumLen bs - sumLen (cascade (setFree bs i)))) % BUFFSIZE = _
      congr 1
      have h1 : sumLen (setFree bs i) = sumLen ds + sumLen (cascade (setFree bs i)) := by
        conv_lhs => rw [hds]
        rw [sumLen_append]
      rw [sumLen_setFree] at h1
      omega

/-- C8, witness: no tail motion on an allocation from the initial state, and
the retired-prefix decomposition for freeing the middle block of `stABC`. -/
theorem c8_witness :
    (circalloc st0 16).1.tail = st0.tail ∧
    ∃ ds, setFree bsABC 1 = ds ++ cascade (setFree bsABC 1) ∧
      (∀ b ∈ ds, b.free = HDR_FREE ∨ b.free = HDR_GAP) ∧
      (circfree stABC (posAt stABC.tail bsABC 1 + 8)).tail =
        (stABC.tail + sumLen ds) % BUFFSIZE :=
  ⟨c8_fifo_tail.1 st0 16,
   c8_fifo_tail.2 stABC bsABC 1 reach_stABC (by decide) (by decide)⟩

/-- C9: round trip.  From the empty allocator, once every pointer returned
by the successful allocations has been freed (no in-use block remains in
any order of freeing), the allocator is empty again: the ghost list is empty
and `head = tail`, though the tail need not be back at 0 — concretely, in
the reverse-order scenario of the source's test 3, freeing p3 then p2 leaves
the tail at 0, and the final free of p1 retires everything in one walk,
leaving `head = tail = 0x430`. -/
theorem c9_round_trip :
    (∀ (s : St) (bs : List Hdr), Reach s bs → (∀ b ∈ bs, b.free ≠ HDR_INUSE) →
      bs = [] ∧ s.head = s.tail) ∧
    ((circfree stABC 0x38).tail = 0 ∧
     (circfree (circfree stABC 0x38) 0x28).tail = 0 ∧
     (circfree (circfree (circfree stABC 0x38) 0x28) 0x8).tail = 0x430 ∧
     (circfree (circfree (circfree stABC 0x38) 0x28) 0x8).head = 0x430) := by
  constructor
  · intro s bs hr hnone
    have hnil := reach_no_inuse_nil hr hnone
    exact ⟨hnil, (reach_valid hr).head_eq_tail_iff.mpr hnil⟩
  · decide

/-- C9, witness: the round-trip property applied to the initial state. -/
theorem c9_witness : ([] : List Hdr) = [] ∧ st0.head = st0.tail :=
  c9_round_trip.1 st0 [] Reach.init (by simp)

/-- C10: alignment invariant.  In every reachable state, `head` and `tail`
are multiples of 16; every block of the ghost list — real or gap — starts at
a 16-byte aligned offset and has a length that is a positive multiple of 16;
and every pointer a successful `alloc` returns from such a state lies
exactly `sizeof(struct hdr) = 8` bytes past its 16-byte aligned block start
(`p mod 16 = 8`). -/
theorem c10_alignment {s : St} {bs : List Hdr} (hr : Reach s bs) :
    16 ∣ s.head ∧ 16 ∣ s.tail ∧
    (∀ i, i < bs.length →
      16 ∣ posAt s.tail bs i ∧ 0 < (nthHdr bs i).len ∧ 16 ∣ (nthHdr bs i).len) ∧
    (∀ (size : Nat) (s2 : St) (p : Nat), circalloc s size = (s2, some p) →
      p % 16 = 8) := by
  have hv := reach_valid hr
  refine ⟨hv.head_align, hv.tail_align, ?_, ?_⟩
  · intro i hi
    refine ⟨?_, hv.len_pos _ (nthHdr_mem bs hi), hv.len_align _ (nthHdr_mem bs hi)⟩
    exact dvd16_mod (Nat.dvd_add hv.tail_align (sumTo_dvd bs hv.len_align i))
  · intro size s2 p h
    exact alloc_ptr_mod hv.head_align h

/-- C10, witness: the alignment invariant applied to the reachable
three-block state `stABC`. -/
theorem c10_witness :
    16 ∣ stABC.head ∧ 16 ∣ stABC.tail ∧ 16 ∣ posAt stABC.tail bsABC 1 ∧
    (1080 : Nat) % 16 = 8 := by
  have h := c10_alignment reach_stABC
  exact ⟨h.1, h.2.1, (h.2.2.1 1 (by decide)).1,
    h.2.2.2 16 (circalloc stABC 16).1 1080 rfl⟩

end Circalloc
